import Mathlib

/-!
Shallow embedding of the sidecar orchestration core
(`src/sidecar/src/agentic/symbol/manager.rs` and
`src/sidecar/src/agentic/tool/session/chat.rs`) together with proofs
about its symbol-merge pass, its per-task resolution pass, its event
hub and its streaming-completion protocol.
-/

set_option autoImplicit false

namespace Sidecar

/-! ## Basic data (from `chunking::text_document` and `chunking::types`) -/

/-- Source position, as used by find-in-file and go-to-definition. -/
structure Position where
  line : Nat
  character : Nat
  deriving DecidableEq, Repr

/-- Source range attached to outline nodes and snippets. -/
structure Range where
  startLine : Nat
  startCharacter : Nat
  endLine : Nat
  endCharacter : Nat
  deriving DecidableEq, Repr

/-- Resolved symbol location (`Snippet::new(name, range, fs_file_path)`). -/
structure Snippet where
  name : String
  range : Range
  fs_file_path : String
  deriving DecidableEq, Repr

/-- Content of an outline node: `name()`, `range()`, `fs_file_path()`. -/
structure OutlineNodeContent where
  name : String
  range : Range
  fs_file_path : String
  deriving DecidableEq, Repr

/-- Hierarchical outline node: `is_class()`, `content()`, `children()`. -/
structure OutlineNode where
  content : OutlineNodeContent
  children : List OutlineNodeContent
  is_class : Bool
  deriving DecidableEq, Repr

/-! ## Error model (from `agentic::tool::errors` and `symbol::errors`) -/

/-- The two `ToolError` variants produced along the resolution paths. -/
inductive ToolErr where
  | symbolNotFound (name : String)
  | invocationFailed
  deriving DecidableEq, Repr

/-- `SymbolError` as used by the manager's helper methods. -/
inductive SymbolError where
  | toolError (e : ToolErr)
  | wrongToolOutput
  deriving DecidableEq, Repr

/-- Result of running a piece of embedded Rust: a value, a propagated
`SymbolError`, or an unrecoverable runtime abort (a Rust panic such as
`Vec::remove` on an empty vector). -/
inductive Outcome (α : Type) where
  | ok (a : α)
  | err (e : SymbolError)
  | panic
  deriving DecidableEq, Repr

/-! ## Upstream hint lists (from `agentic::tool::code_symbol::important`) -/

/-- One entry of the ordered symbol list (`CodeSymbolWithSteps`):
`code_symbol()`, `steps()`, `is_new()`, `file_path()`. -/
structure CodeSymbolWithSteps where
  code_symbol : String
  steps : List String
  is_new : Bool
  file_path : String
  deriving DecidableEq, Repr

/-- One entry of the unordered symbol list (`CodeSymbolWithThinking`):
`code_symbol()`, `thinking()`, `file_path()`. -/
structure CodeSymbolWithThinking where
  code_symbol : String
  thinking : String
  file_path : String
  deriving DecidableEq, Repr

/-- The upstream response fed to `important_symbols`: the unordered
`symbols()` list and the ordered `ordered_symbols()` list. -/
structure CodeSymbolImportantResponse where
  symbols : List CodeSymbolWithThinking
  ordered_symbols : List CodeSymbolWithSteps
  deriving DecidableEq, Repr

/-- Merged per-symbol task (`MechaCodeSymbolThinking`), constructed with
`MechaCodeSymbolThinking::new(symbol_name, steps, is_new, file_path,
snippet, implementations)`. -/
structure MechaCodeSymbolThinking where
  symbol_name : String
  steps : List String
  is_new : Bool
  fs_file_path : String
  snippet : Option Snippet
  implementations : List Snippet
  deriving DecidableEq, Repr

/-- Modelled from the spec: `MechaCodeSymbolThinking::add_step` lives in
`symbol/identifier.rs`, which is not among the provided sources; the data
model states that merging appends `reasoningSteps` rather than
overwriting, so `add_step` appends one entry to `steps`. -/
def MechaCodeSymbolThinking.add_step (t : MechaCodeSymbolThinking) (step : String) :
    MechaCodeSymbolThinking :=
  { t with steps := t.steps ++ [step] }

/-- Modelled from the spec: `MechaCodeSymbolThinking::set_snippet` lives in
`symbol/identifier.rs`, which is not among the provided sources; per the
data model it records the resolved snippet on the task. -/
def MechaCodeSymbolThinking.set_snippet (t : MechaCodeSymbolThinking) (s : Snippet) :
    MechaCodeSymbolThinking :=
  { t with snippet := some s }

/-! ## Association-list model of `HashMap<String, MechaCodeSymbolThinking>`

`HashMap::insert` replaces the value stored at an existing key and
otherwise adds the key; `get_mut` mutates the value in place. Keys are
kept in first-insertion order, one admissible iteration order of the
hash map (none of the proved statements depends on the order). -/

/-- Lookup in the association list (`HashMap::get` / `get_mut` hit test). -/
def alookup {α : Type} (m : List (String × α)) (k : String) : Option α :=
  match m with
  | [] => none
  | (k', v) :: rest => if k' = k then some v else alookup rest k

/-- Embedding of `HashMap::insert`: replace in place or append. -/
def alistInsert {α : Type} (m : List (String × α)) (k : String) (v : α) :
    List (String × α) :=
  match m with
  | [] => [(k, v)]
  | (k', v') :: rest =>
      if k' = k then (k, v) :: rest else (k', v') :: alistInsert rest k v

/-- Embedding of `HashMap::get_mut` followed by an in-place mutation:
apply `f` to the stored value when the key is present, else no change. -/
def alistUpdate {α : Type} (m : List (String × α)) (k : String) (f : α → α) :
    List (String × α) :=
  match m with
  | [] => []
  | (k', v) :: rest =>
      if k' = k then (k', f v) :: rest else (k', v) :: alistUpdate rest k f

/-- Keys of the association list, in iteration order. -/
def akeys {α : Type} (m : List (String × α)) : List String :=
  m.map Prod.fst

/-- Embedding of `HashSet<String>::insert`: sets are kept as duplicate-free
lists, so insertion of a present element is a no-op. -/
def insertSet (s : List String) (x : String) : List String :=
  if x ∈ s then s else s ++ [x]

/-! ## Merge pass of `important_symbols` (manager.rs lines 287–332) -/

/-- Mutable state of the merge pass: `new_symbols`, `symbols_to_visit`
and `final_code_snippets`. -/
structure MergeState where
  new_symbols : List String
  symbols_to_visit : List String
  final_code_snippets : List (String × MechaCodeSymbolThinking)
  deriving DecidableEq, Repr

/-- Initial merge state (`Default::default()` for the three containers). -/
def MergeState.init : MergeState := ⟨[], [], []⟩

/-- Task built by the ordered walk for one entry:
`MechaCodeSymbolThinking::new(code_symbol, steps, is_new, file_path, None, vec![])`. -/
def taskOfOrdered (s : CodeSymbolWithSteps) : MechaCodeSymbolThinking :=
  ⟨s.code_symbol, s.steps, s.is_new, s.file_path, none, []⟩

/-- One iteration of the first walk (`ordered_symbols.iter().for_each`):
a "new" entry is recorded in `new_symbols`, any other entry in
`symbols_to_visit`, and in both cases `final_code_snippets.insert`
stores a fresh task under the symbol name. -/
def orderedStep (st : MergeState) (s : CodeSymbolWithSteps) : MergeState :=
  if s.is_new then
    { st with
      new_symbols := insertSet st.new_symbols s.code_symbol
      final_code_snippets :=
        alistInsert st.final_code_snippets s.code_symbol (taskOfOrdered s) }
  else
    { st with
      symbols_to_visit := insertSet st.symbols_to_visit s.code_symbol
      final_code_snippets :=
        alistInsert st.final_code_snippets s.code_symbol (taskOfOrdered s) }

/-- One iteration of the second walk (`symbols.iter().for_each`): entries
whose name is in `new_symbols` are skipped; otherwise the name joins
`symbols_to_visit` and, when a task already exists for the name,
`add_step(symbol.thinking())` appends to its reasoning. -/
def unorderedStep (st : MergeState) (s : CodeSymbolWithThinking) : MergeState :=
  if s.code_symbol ∈ st.new_symbols then st
  else
    { st with
      symbols_to_visit := insertSet st.symbols_to_visit s.code_symbol
      final_code_snippets :=
        alistUpdate st.final_code_snippets s.code_symbol
          (fun t => t.add_step s.thinking) }

/-- The whole merge pass of `important_symbols`: the ordered walk first,
then the unordered walk over the resulting state. -/
def mergeSymbols (resp : CodeSymbolImportantResponse) : MergeState :=
  resp.symbols.foldl unorderedStep
    (resp.ordered_symbols.foldl orderedStep MergeState.init)

/-! ## Tool-broker boundary (§6 of the design): responses of the helper
methods `file_open`, `find_in_file`, `go_to_definition` on
`SymbolManager`, each of which returns `Result<_, SymbolError>`. -/

/-- `OpenFileResponse`: `contents()`, `language()`, `fs_file_path()`. -/
structure OpenFileResponse where
  contents : String
  language : String
  fs_file_path : String
  deriving DecidableEq, Repr

/-- `FindInFileResponse`: `get_position()` yields the first occurrence. -/
structure FindInFileResponse where
  position : Option Position
  deriving DecidableEq, Repr

/-- One definition location returned by go-to-definition: `file_path()`. -/
structure DefinitionPathAndRange where
  file_path : String
  range : Range
  deriving DecidableEq, Repr

/-- `GoToDefinitionResponse`: `definitions()` may be empty. -/
structure GoToDefinitionResponse where
  definitions : List DefinitionPathAndRange
  deriving DecidableEq, Repr

/-- The external collaborators seen through the manager's helper methods.
`get_outline` stands for `symbol_broker.get_symbols_outline`; the design
(§5) requires re-parsing on `add_document` to be idempotent, so the
cached outline is a pure function of the file path here. -/
structure ToolEnv where
  file_open : String → Except SymbolError OpenFileResponse
  get_outline : String → Option (List OutlineNode)
  find_in_file : String → String → Except SymbolError FindInFileResponse
  go_to_definition : String → Position → Except SymbolError GoToDefinitionResponse

/-! ## Resolution pass (manager.rs lines 194–277 and 336–429) -/

/-- `grab_symbols_from_outline` (lines 242–277): container-aware name
filter. A class node whose own name matches contributes exactly its own
content; otherwise its children are filtered by name; a non-class node
matches only by direct name equality. -/
def grab_symbols_from_outline (outline_nodes : List OutlineNode)
    (symbol_name : String) : List OutlineNodeContent :=
  (outline_nodes.map (fun node =>
    if node.is_class then
      if node.content.name = symbol_name then [node.content]
      else node.children.filter (fun child => child.name = symbol_name)
    else
      if node.content.name = symbol_name then [node.content] else [])).flatten

/-- `grab_symbol_content_from_definition` (lines 194–240). The first line
executes `definition.definitions().remove(0)`, and `Vec::remove` aborts
the process when the vector is empty — embedded as `Outcome.panic`. -/
def grab_symbol_content_from_definition (env : ToolEnv) (symbol_name : String)
    (definition : GoToDefinitionResponse) : Outcome Snippet :=
  match definition.definitions with
  | [] => Outcome.panic
  | d :: _ =>
    match env.file_open d.file_path with
    | .error e => .err e
    | .ok _ =>
      match env.get_outline d.file_path with
      | some symbols =>
        match (grab_symbols_from_outline symbols symbol_name).find?
            (fun s => s.name == symbol_name) with
        | some s => .ok ⟨s.name, s.range, d.file_path⟩
        | none => .err (.toolError (.symbolNotFound symbol_name))
      | none => .err (.toolError (.symbolNotFound symbol_name))

/-- The position search of the fallback path (lines 380–385):
`find_in_file(..).map(get_position).ok().flatten()` — a failing search is
swallowed and treated as "no occurrence". -/
def findPosition (env : ToolEnv) (contents : String) (symbol_name : String) :
    Option Position :=
  match env.find_in_file contents symbol_name with
  | .ok response => response.position
  | .error _ => none

/-- The go-to-definition fallback inside the per-task loop (lines
375–399): re-open the file, search for the symbol's first occurrence
(errors of the search are swallowed by `.ok().flatten()`), then
go-to-definition (propagated by `?`) and the definition-content grab
(propagated by `?`); with no found position the task is left untouched. -/
def fallback_resolve (env : ToolEnv) (task : MechaCodeSymbolThinking) :
    Outcome MechaCodeSymbolThinking :=
  match env.file_open task.fs_file_path with
  | .error e => .err e
  | .ok file_data =>
    match findPosition env file_data.contents task.symbol_name with
    | some file_position =>
      match env.go_to_definition task.fs_file_path file_position with
      | .error e => .err e
      | .ok definition =>
        match grab_symbol_content_from_definition env task.symbol_name definition with
        | .ok snippet_node => .ok (task.set_snippet snippet_node)
        | .err e => .err e
        | .panic => .panic
    | none => .ok task

/-- The outline-present branch of the per-task loop (lines 362–411):
run the container-aware filter; an empty result routes to the
go-to-definition fallback, a non-empty result takes `remove(0)` — the
first match — and records its snippet. -/
def resolve_with_outline (env : ToolEnv) (task : MechaCodeSymbolThinking)
    (outline_nodes : List OutlineNode) : Outcome MechaCodeSymbolThinking :=
  match grab_symbols_from_outline outline_nodes task.symbol_name with
  | [] => fallback_resolve env task
  | outline_node :: _ =>
      .ok (task.set_snippet ⟨outline_node.name, outline_node.range, outline_node.fs_file_path⟩)

/-- One iteration of the per-task loop of `important_symbols` (lines
336–427): open the hinted file (`?` propagates failures), refresh the
outline cache, then either resolve against the outline or — with no
outline at all — log and keep the task unchanged. -/
def resolve_task (env : ToolEnv) (task : MechaCodeSymbolThinking) :
    Outcome MechaCodeSymbolThinking :=
  match env.file_open task.fs_file_path with
  | .error e => .err e
  | .ok _file_open_result =>
    match env.get_outline task.fs_file_path with
    | some outline_nodes => resolve_with_outline env task outline_nodes
    | none => .ok task

/-- The `for (_, code_snippet) in final_code_snippets` loop: resolve each
merged task in iteration order, pushing results onto `mecha_symbols`;
any propagated error discards the whole accumulated list. -/
def resolve_all (env : ToolEnv) :
    List (String × MechaCodeSymbolThinking) → Outcome (List MechaCodeSymbolThinking)
  | [] => .ok []
  | (_, task) :: rest =>
    match resolve_task env task with
    | .ok resolved =>
      match resolve_all env rest with
      | .ok tail => .ok (resolved :: tail)
      | .err e => .err e
      | .panic => .panic
    | .err e => .err e
    | .panic => .panic

/-- `important_symbols` (lines 283–429): the merge pass followed by the
per-task resolution loop. -/
def important_symbols (env : ToolEnv) (resp : CodeSymbolImportantResponse) :
    Outcome (List MechaCodeSymbolThinking) :=
  resolve_all env (mergeSymbols resp).final_code_snippets

/-! ## Event routing hub (manager.rs lines 52–78)

`SymbolManager::new` opens an unbounded channel of
`(SymbolEventRequest, oneshot::Sender<SymbolEventResponse>)` pairs and
spawns one dispatch loop that pulls entries in FIFO order and hands each
to `SymbolLocker::process_request`. -/

/-- One mailbox entry: a request paired, at send time, with its
single-use reply channel (channels are identified by submission index). -/
structure MailboxEntry (Req : Type) where
  request : Req
  channel : Nat
  deriving DecidableEq, Repr

/-- Pair the submitted requests with fresh one-shot reply channels,
numbering channels consecutively starting at `i`. -/
def submitAllFrom {Req : Type} (i : Nat) : List Req → List (MailboxEntry Req)
  | [] => []
  | r :: rs => ⟨r, i⟩ :: submitAllFrom (i + 1) rs

/-- Pair each of the N submitted requests with its own fresh one-shot
reply channel, in submission order. -/
def submitAll {Req : Type} (reqs : List Req) : List (MailboxEntry Req) :=
  submitAllFrom 0 reqs

/-- The dispatch loop (`while let Some(event) = receier.recv().await`):
process entries strictly sequentially, signalling each entry's reply
channel with the produced response. `process` stands for
`SymbolLocker::process_request`. Modelled from the spec:
`SymbolLocker::process_request` lives in `symbol/locker.rs`, which is not
among the provided sources; per §4.1 it signals every reply channel
exactly once with a success or failure value, so it is embedded as a
total function from requests to responses. -/
def dispatchLoop {Req Resp : Type} (process : Req → Resp) :
    List (MailboxEntry Req) → List (Nat × Resp)
  | [] => []
  | entry :: rest => (entry.channel, process entry.request) :: dispatchLoop process rest

/-- Submit a batch of requests through the mailbox and run the dispatch
loop to completion, collecting the signals sent on the reply channels. -/
def hubRun {Req Resp : Type} (process : Req → Resp) (reqs : List Req) :
    List (Nat × Resp) :=
  dispatchLoop process (submitAll reqs)

/-! ## Cancellable streaming completion protocol (chat.rs lines 233–320) -/

/-- `LLMClientCompletionResponse` as consumed by the polling loop:
`answer_up_until_now()` and `delta()`. -/
structure StreamMessage where
  answer_up_until_now : String
  delta : Option String
  deriving DecidableEq, Repr

/-- The consumer loop (lines 290–306): drain the delta channel until it
closes, keeping the latest cumulative answer, starting from `""`. -/
def consumerAnswer (msgs : List StreamMessage) : String :=
  msgs.foldl (fun _ msg => msg.answer_up_until_now) ""

/-- Outcome of awaiting `run_with_cancellation(token, spawn(...))`:
either the natural completion of the provider call or an early
cancellation return. -/
inductive CancellableOutcome where
  | completed
  | cancelled
  deriving DecidableEq, Repr

/-- Errors surfaced by `SessionChatClient::invoke`. -/
inductive ChatToolErr where
  | retriesExhausted
  | wrongToolInput
  deriving DecidableEq, Repr

/-- Modelled from the spec: `run_with_cancellation` lives in
`tool/helpers/cancellation_future.rs`, which is not among the provided
sources. Per §4.3/§5, cancellation short-circuits only the wrapper's
wait; the spawned provider task keeps the channel sender alive until it
finishes, so the channel is not force-closed and the consumer drains the
full producer output regardless of cancellation. -/
def channelContents (producer_msgs : List StreamMessage)
    (_llm_response : CancellableOutcome) : List StreamMessage :=
  producer_msgs

/-- `SessionChatClient::invoke` (lines 233–320): validate the input
shape, await the cancellable producer wrapper (its value is only
printed), then join the consumer; a joined consumer yields `Ok` with the
accumulated reply and a failed join yields `RetriesExhausted`. -/
def session_chat_invoke (input_ok : Bool) (llm_response : CancellableOutcome)
    (producer_msgs : List StreamMessage) (consumer_joins : Bool) :
    Except ChatToolErr String :=
  if input_ok then
    let answer_up_until_now := consumerAnswer (channelContents producer_msgs llm_response)
    if consumer_joins then .ok answer_up_until_now
    else .error .retriesExhausted
  else .error .wrongToolInput

/-! ## Concrete instances used to exercise the theorems -/

/-- Environment whose file-open always fails with `ToolInvocationFailed`. -/
def envOpenFails : ToolEnv :=
  ⟨fun _ => .error (.toolError .invocationFailed), fun _ => none,
   fun _ _ => .error (.toolError .invocationFailed),
   fun _ _ => .error (.toolError .invocationFailed)⟩

/-- Environment where every file opens with empty contents and no cached
outline is ever available. -/
def envNoOutline : ToolEnv :=
  ⟨fun p => .ok ⟨"", "rust", p⟩, fun _ => none,
   fun _ _ => .error (.toolError .invocationFailed),
   fun _ _ => .error (.toolError .invocationFailed)⟩

/-- Environment where every file opens, the cached outline is empty and
the text search fails. -/
def envEmptyOutline : ToolEnv :=
  ⟨fun p => .ok ⟨"", "rust", p⟩, fun _ => some [],
   fun _ _ => .error (.toolError .invocationFailed),
   fun _ _ => .error (.toolError .invocationFailed)⟩

/-- A leaf outline declaration for `Bar`. -/
def barContent : OutlineNodeContent := ⟨"Bar", ⟨4, 0, 9, 0⟩, "a.rs"⟩

/-- Environment whose outline for every file holds the single leaf `Bar`. -/
def envBarOutline : ToolEnv :=
  ⟨fun p => .ok ⟨"", "rust", p⟩, fun _ => some [⟨barContent, [], false⟩],
   fun _ _ => .error (.toolError .invocationFailed),
   fun _ _ => .error (.toolError .invocationFailed)⟩

/-- An ordered hint classifying `Foo` as new. -/
def orderedFooNew : CodeSymbolWithSteps := ⟨"Foo", [], true, "f.rs"⟩

/-- An ordered hint classifying `Foo` as existing. -/
def orderedFooOld : CodeSymbolWithSteps := ⟨"Foo", ["a"], false, "f.rs"⟩

/-- An unordered hint for `Foo` carrying one unit of reasoning. -/
def unorderedFooB : CodeSymbolWithThinking := ⟨"Foo", "b", "f.rs"⟩

/-- A second unordered hint for `Foo`. -/
def unorderedFooC : CodeSymbolWithThinking := ⟨"Foo", "c", "f.rs"⟩

/-- A minimal upstream response with one existing ordered symbol. -/
def respFoo : CodeSymbolImportantResponse := ⟨[], [orderedFooOld]⟩

/-- An upstream response with `Foo` ordered and `Bar` only unordered. -/
def respFooBar : CodeSymbolImportantResponse :=
  ⟨[⟨"Bar", "explore", "g.rs"⟩], [orderedFooOld]⟩

/-- The merged task produced for `respFoo`. -/
def taskFoo : MechaCodeSymbolThinking := taskOfOrdered orderedFooOld

/-- A merged task hinted at `a.rs` for the direct-match theorems. -/
def taskBar : MechaCodeSymbolThinking := taskOfOrdered ⟨"Bar", [], false, "a.rs"⟩

/-- A container named `Foo` whose member is also named `Foo`. -/
def nodeFooNested : OutlineNode :=
  ⟨⟨"Foo", ⟨0, 0, 10, 0⟩, "f.rs"⟩, [⟨"Foo", ⟨2, 0, 3, 0⟩, "f.rs"⟩], true⟩

/-- A two-message delta stream accumulating the text `hello`. -/
def msgsHello : List StreamMessage := [⟨"he", some "he"⟩, ⟨"hello", some "llo"⟩]

/-! ## Derived descriptions of the merge pass -/
/-- The last entry of the ordered walk bearing a given name: since
`HashMap::insert` overwrites, this entry determines the stored task. -/
def lastOrdered (name : String) : List CodeSymbolWithSteps → Option CodeSymbolWithSteps
  | [] => none
  | e :: rest =>
    match lastOrdered name rest with
    | some x => some x
    | none => if e.code_symbol = name then some e else none

/-- Whether some ordered entry classifies the name as new (the condition
under which the name enters `new_symbols`). -/
def anyNewOrdered (name : String) (os : List CodeSymbolWithSteps) : Bool :=
  os.any (fun e => e.code_symbol == name && e.is_new)

/-- The task the merge pass stores for a name: the task of the last
ordered entry bearing the name, with the reasoning of the matching
unordered entries appended — unless the name ever entered `new_symbols`,
in which case the unordered walk skips it. -/
def mergedTask (us : List CodeSymbolWithThinking) (os : List CodeSymbolWithSteps)
    (name : String) : Option MechaCodeSymbolThinking :=
  (lastOrdered name os).map (fun e =>
    if anyNewOrdered name os then taskOfOrdered e
    else { taskOfOrdered e with
           steps := e.steps ++
             (us.filter (fun u => u.code_symbol == name)).map (·.thinking) })

/-! ## Lemmas about the association-list and set embeddings -/

@[simp]
theorem akeys_nil {α : Type} : akeys ([] : List (String × α)) = [] := rfl

@[simp]
theorem akeys_cons {α : Type} (k : String) (v : α) (m : List (String × α)) :
    akeys ((k, v) :: m) = k :: akeys m := rfl

@[simp]
theorem alookup_nil {α : Type} (k : String) : alookup ([] : List (String × α)) k = none := rfl

@[simp]
theorem alookup_cons {α : Type} (k' k : String) (v : α) (m : List (String × α)) :
    alookup ((k', v) :: m) k = if k' = k then some v else alookup m k := rfl

theorem alookup_alistInsert_self {α : Type} (m : List (String × α)) (k : String) (v : α) :
    alookup (alistInsert m k v) k = some v := by
  induction m with
  | nil => simp [alistInsert]
  | cons p rest ih =>
    obtain ⟨k', v'⟩ := p
    by_cases h : k' = k <;> simp [alistInsert, h, ih]

theorem alookup_alistInsert_ne {α : Type} (m : List (String × α)) (k k' : String) (v : α)
    (h : k ≠ k') : alookup (alistInsert m k v) k' = alookup m k' := by
  induction m with
  | nil => simp [alistInsert, alookup, h]
  | cons p rest ih =>
    obtain ⟨k₀, v₀⟩ := p
    by_cases h₀ : k₀ = k
    · subst h₀; simp [alistInsert, alookup, h]
    · simp only [alistInsert, if_neg h₀, alookup_cons]
      by_cases h₁ : k₀ = k' <;> simp [h₁, ih]

theorem alookup_alistUpdate_self {α : Type} (m : List (String × α)) (k : String) (f : α → α) :
    alookup (alistUpdate m k f) k = (alookup m k).map f := by
  induction m with
  | nil => simp [alistUpdate]
  | cons p rest ih =>
    obtain ⟨k', v⟩ := p
    by_cases h : k' = k <;> simp [alistUpdate, h, ih]

theorem alookup_alistUpdate_ne {α : Type} (m : List (String × α)) (k k' : String) (f : α → α)
    (h : k ≠ k') : alookup (alistUpdate m k f) k' = alookup m k' := by
  induction m with
  | nil => simp [alistUpdate]
  | cons p rest ih =>
    obtain ⟨k₀, v₀⟩ := p
    by_cases h₀ : k₀ = k
    · subst h₀; simp [alistUpdate, alookup, h]
    · simp only [alistUpdate, if_neg h₀, alookup_cons]
      by_cases h₁ : k₀ = k' <;> simp [h₁, ih]

@[simp]
theorem akeys_alistUpdate {α : Type} (m : List (String × α)) (k : String) (f : α → α) :
    akeys (alistUpdate m k f) = akeys m := by
  induction m with
  | nil => rfl
  | cons p rest ih =>
    obtain ⟨k', v⟩ := p
    by_cases h : k' = k
    · simp [alistUpdate, h]
    · simp only [alistUpdate, if_neg h, akeys_cons, ih]

theorem akeys_alistInsert {α : Type} (m : List (String × α)) (k : String) (v : α) :
    akeys (alistInsert m k v) = if k ∈ akeys m then akeys m else akeys m ++ [k] := by
  induction m with
  | nil => simp [alistInsert, akeys]
  | cons p rest ih =>
    obtain ⟨k', v'⟩ := p
    by_cases h : k' = k
    · subst h; simp [alistInsert, akeys]
    · have hne : ¬k = k' := fun hh => h hh.symm
      simp only [alistInsert, if_neg h, akeys, List.map_cons] at ih ⊢
      by_cases hmem : k ∈ rest.map Prod.fst <;>
        simp [hmem, hne, ih]

theorem mem_akeys_iff_alookup {α : Type} (m : List (String × α)) (k : String) :
    k ∈ akeys m ↔ alookup m k ≠ none := by
  induction m with
  | nil => simp [akeys]
  | cons p rest ih =>
    obtain ⟨k', v⟩ := p
    by_cases h : k' = k
    · subst h; simp
    · have h' : ¬k = k' := fun hh => h hh.symm
      simp [h, h', ih]

theorem nodup_akeys_alistInsert {α : Type} (m : List (String × α)) (k : String) (v : α)
    (h : (akeys m).Nodup) : (akeys (alistInsert m k v)).Nodup := by
  rw [akeys_alistInsert]
  by_cases hmem : k ∈ akeys m
  · simpa [hmem] using h
  · simpa [hmem] using List.Nodup.append h (List.nodup_singleton k)
      (by simpa using fun hx => hmem hx)

theorem mem_insertSet (s : List String) (x y : String) :
    y ∈ insertSet s x ↔ y ∈ s ∨ y = x := by
  by_cases h : x ∈ s
  · simp only [insertSet, if_pos h]
    constructor
    · exact fun hy => Or.inl hy
    · rintro (hy | rfl) <;> assumption
  · simp [insertSet, if_neg h]

theorem alistInsert_forall {α : Type} (P : String × α → Prop) (m : List (String × α))
    (k : String) (v : α) (hm : ∀ p ∈ m, P p) (hv : P (k, v)) :
    ∀ p ∈ alistInsert m k v, P p := by
  induction m with
  | nil => simpa [alistInsert] using hv
  | cons q rest ih =>
    obtain ⟨k', v'⟩ := q
    by_cases h : k' = k
    · subst h
      simp only [alistInsert, if_pos rfl]
      intro p hp
      rcases List.mem_cons.mp hp with hp' | hp'
      · simpa [hp'] using hv
      · exact hm _ (List.mem_cons_of_mem _ hp')
    · simp only [alistInsert, if_neg h]
      intro p hp
      rcases List.mem_cons.mp hp with hp' | hp'
      · exact hm _ (by simp [hp'])
      · exact ih (fun q hq => hm q (List.mem_cons_of_mem _ hq)) p hp'

/-! ## Characterization of the merge pass -/

theorem anyNewOrdered_iff (name : String) (os : List CodeSymbolWithSteps) :
    anyNewOrdered name os = true ↔ ∃ e ∈ os, e.code_symbol = name ∧ e.is_new = true := by
  simp [anyNewOrdered, List.any_eq_true]

theorem lastOrdered_mem_aux (name : String) (os : List CodeSymbolWithSteps)
    (x : CodeSymbolWithSteps) (h : lastOrdered name os = some x) :
    x ∈ os ∧ x.code_symbol = name := by
  induction os with
  | nil => simp [lastOrdered] at h
  | cons e os ih =>
    rw [lastOrdered] at h
    cases hlast : lastOrdered name os with
    | some y =>
      rw [hlast] at h
      obtain ⟨hy₁, hy₂⟩ := ih (hlast.trans (by injection h with hh; rw [hh]))
      exact ⟨List.mem_cons_of_mem _ hy₁, hy₂⟩
    | none =>
      rw [hlast] at h
      by_cases he : e.code_symbol = name
      · rw [if_pos he] at h
        injection h with hh
        exact ⟨by simp [← hh], hh ▸ he⟩
      · rw [if_neg he] at h
        exact absurd h (by simp)

theorem lastOrdered_isSome_iff (name : String) (os : List CodeSymbolWithSteps) :
    (lastOrdered name os).isSome ↔ ∃ e ∈ os, e.code_symbol = name := by
  induction os with
  | nil => simp [lastOrdered]
  | cons e os ih =>
    cases hlast : lastOrdered name os with
    | some x =>
      simp only [lastOrdered, hlast, Option.isSome_some, true_iff]
      exact ⟨x, List.mem_cons_of_mem _ ((lastOrdered_mem_aux name os x hlast).1),
        (lastOrdered_mem_aux name os x hlast).2⟩
    | none =>
      rw [hlast] at ih
      simp only [Option.isSome_none, Bool.false_eq_true, false_iff] at ih
      simp only [lastOrdered, hlast]
      by_cases h : e.code_symbol = name
      · simp [h]
      · simp only [if_neg h, Option.isSome_none, Bool.false_eq_true, false_iff]
        rintro ⟨x, hx, hxe⟩
        rcases List.mem_cons.mp hx with rfl | hx'
        · exact h hxe
        · exact ih ⟨x, hx', hxe⟩

theorem orderedStep_final (st : MergeState) (e : CodeSymbolWithSteps) :
    (orderedStep st e).final_code_snippets =
      alistInsert st.final_code_snippets e.code_symbol (taskOfOrdered e) := by
  by_cases h : e.is_new = true <;> simp [orderedStep, h]

theorem orderedStep_new_symbols_true (st : MergeState) (e : CodeSymbolWithSteps)
    (h : e.is_new = true) :
    (orderedStep st e).new_symbols = insertSet st.new_symbols e.code_symbol := by
  simp [orderedStep, h]

theorem orderedStep_new_symbols_false (st : MergeState) (e : CodeSymbolWithSteps)
    (h : e.is_new = false) : (orderedStep st e).new_symbols = st.new_symbols := by
  simp [orderedStep, h]

theorem orderedStep_to_visit_true (st : MergeState) (e : CodeSymbolWithSteps)
    (h : e.is_new = true) : (orderedStep st e).symbols_to_visit = st.symbols_to_visit := by
  simp [orderedStep, h]

theorem orderedStep_to_visit_false (st : MergeState) (e : CodeSymbolWithSteps)
    (h : e.is_new = false) :
    (orderedStep st e).symbols_to_visit = insertSet st.symbols_to_visit e.code_symbol := by
  simp [orderedStep, h]

theorem alistUpdate_forall {α : Type} (P : String × α → Prop) (m : List (String × α))
    (k : String) (f : α → α) (hm : ∀ p ∈ m, P p)
    (hf : ∀ v, P (k, v) → P (k, f v)) :
    ∀ p ∈ alistUpdate m k f, P p := by
  induction m with
  | nil => simp [alistUpdate]
  | cons q rest ih =>
    obtain ⟨k', v'⟩ := q
    by_cases h : k' = k
    · subst h
      simp only [alistUpdate, if_pos rfl]
      intro p hp
      rcases List.mem_cons.mp hp with hp' | hp'
      · exact hp' ▸ hf _ (hm _ (by simp))
      · exact hm _ (List.mem_cons_of_mem _ hp')
    · simp only [alistUpdate, if_neg h]
      intro p hp
      rcases List.mem_cons.mp hp with hp' | hp'
      · exact hm _ (by simp [hp'])
      · exact ih (fun q hq => hm q (List.mem_cons_of_mem _ hq)) p hp'

/-! ## Fold characterizations -/

theorem ordered_fold_alookup (name : String) (os : List CodeSymbolWithSteps)
    (st : MergeState) :
    alookup (os.foldl orderedStep st).final_code_snippets name =
      match lastOrdered name os with
      | some e => some (taskOfOrdered e)
      | none => alookup st.final_code_snippets name := by
  induction os generalizing st with
  | nil => rfl
  | cons e os ih =>
    rw [List.foldl_cons, ih]
    cases hlast : lastOrdered name os with
    | some x => simp [lastOrdered, hlast]
    | none =>
      simp only [lastOrdered, hlast, orderedStep_final]
      by_cases h : e.code_symbol = name
      · subst h
        simp [alookup_alistInsert_self]
      · rw [alookup_alistInsert_ne _ _ _ _ h, if_neg h]

theorem ordered_fold_new_symbols (name : String) (os : List CodeSymbolWithSteps)
    (st : MergeState) :
    name ∈ (os.foldl orderedStep st).new_symbols ↔
      name ∈ st.new_symbols ∨ ∃ e ∈ os, e.code_symbol = name ∧ e.is_new = true := by
  induction os generalizing st with
  | nil => simp
  | cons e os ih =>
    rw [List.foldl_cons, ih]
    cases hv : e.is_new with
    | true =>
      rw [orderedStep_new_symbols_true st e hv, mem_insertSet]
      constructor
      · rintro ((hs | rfl) | ⟨x, hx, hxn, hxnew⟩)
        · exact Or.inl hs
        · exact Or.inr ⟨e, List.mem_cons_self e os, rfl, hv⟩
        · exact Or.inr ⟨x, List.mem_cons_of_mem _ hx, hxn, hxnew⟩
      · rintro (hs | ⟨x, hx, hxn, hxnew⟩)
        · exact Or.inl (Or.inl hs)
        · rcases List.mem_cons.mp hx with rfl | hx'
          · exact Or.inl (Or.inr hxn.symm)
          · exact Or.inr ⟨x, hx', hxn, hxnew⟩
    | false =>
      rw [orderedStep_new_symbols_false st e hv]
      constructor
      · rintro (hs | ⟨x, hx, hxn, hxnew⟩)
        · exact Or.inl hs
        · exact Or.inr ⟨x, List.mem_cons_of_mem _ hx, hxn, hxnew⟩
      · rintro (hs | ⟨x, hx, hxn, hxnew⟩)
        · exact Or.inl hs
        · rcases List.mem_cons.mp hx with rfl | hx'
          · rw [hv] at hxnew
            exact absurd hxnew (by simp)
          · exact Or.inr ⟨x, hx', hxn, hxnew⟩

theorem ordered_fold_to_visit (name : String) (os : List CodeSymbolWithSteps)
    (st : MergeState) :
    name ∈ (os.foldl orderedStep st).symbols_to_visit ↔
      name ∈ st.symbols_to_visit ∨ ∃ e ∈ os, e.code_symbol = name ∧ e.is_new = false := by
  induction os generalizing st with
  | nil => simp
  | cons e os ih =>
    rw [List.foldl_cons, ih]
    cases hv : e.is_new with
    | false =>
      rw [orderedStep_to_visit_false st e hv, mem_insertSet]
      constructor
      · rintro ((hs | rfl) | ⟨x, hx, hxn, hxnew⟩)
        · exact Or.inl hs
        · exact Or.inr ⟨e, List.mem_cons_self e os, rfl, hv⟩
        · exact Or.inr ⟨x, List.mem_cons_of_mem _ hx, hxn, hxnew⟩
      · rintro (hs | ⟨x, hx, hxn, hxnew⟩)
        · exact Or.inl (Or.inl hs)
        · rcases List.mem_cons.mp hx with rfl | hx'
          · exact Or.inl (Or.inr hxn.symm)
          · exact Or.inr ⟨x, hx', hxn, hxnew⟩
    | true =>
      rw [orderedStep_to_visit_true st e hv]
      constructor
      · rintro (hs | ⟨x, hx, hxn, hxnew⟩)
        · exact Or.inl hs
        · exact Or.inr ⟨x, List.mem_cons_of_mem _ hx, hxn, hxnew⟩
      · rintro (hs | ⟨x, hx, hxn, hxnew⟩)
        · exact Or.inl hs
        · rcases List.mem_cons.mp hx with rfl | hx'
          · rw [hv] at hxnew
            exact absurd hxnew (by simp)
          · exact Or.inr ⟨x, hx', hxn, hxnew⟩

theorem unorderedStep_new_symbols (st : MergeState) (u : CodeSymbolWithThinking) :
    (unorderedStep st u).new_symbols = st.new_symbols := by
  by_cases h : u.code_symbol ∈ st.new_symbols <;> simp [unorderedStep, h]

theorem unorderedStep_final (st : MergeState) (u : CodeSymbolWithThinking) :
    (unorderedStep st u).final_code_snippets =
      if u.code_symbol ∈ st.new_symbols then st.final_code_snippets
      else alistUpdate st.final_code_snippets u.code_symbol
        (fun t => t.add_step u.thinking) := by
  by_cases h : u.code_symbol ∈ st.new_symbols <;> simp [unorderedStep, h]

theorem unordered_fold_new_symbols (us : List CodeSymbolWithThinking) (st : MergeState) :
    (us.foldl unorderedStep st).new_symbols = st.new_symbols := by
  induction us generalizing st with
  | nil => rfl
  | cons u us ih => rw [List.foldl_cons, ih, unorderedStep_new_symbols]

theorem unordered_fold_alookup (name : String) (us : List CodeSymbolWithThinking)
    (st : MergeState) :
    alookup (us.foldl unorderedStep st).final_code_snippets name =
      if name ∈ st.new_symbols then alookup st.final_code_snippets name
      else (alookup st.final_code_snippets name).map
        (fun t => { t with
          steps := t.steps ++
            (us.filter (fun u => u.code_symbol == name)).map (·.thinking) }) := by
  induction us generalizing st with
  | nil =>
    by_cases h : name ∈ st.new_symbols
    · simp [h]
    · rw [if_neg h]
      cases halook : alookup st.final_code_snippets name <;> simp [halook]
  | cons u us ih =>
    rw [List.foldl_cons, ih, unorderedStep_new_symbols, unorderedStep_final]
    by_cases hnew : name ∈ st.new_symbols
    · rw [if_pos hnew, if_pos hnew]
      by_cases hu : u.code_symbol ∈ st.new_symbols
      · rw [if_pos hu]
      · rw [if_neg hu]
        have hne : u.code_symbol ≠ name := fun hh => hu (hh ▸ hnew)
        exact alookup_alistUpdate_ne _ _ _ _ hne
    · rw [if_neg hnew, if_neg hnew]
      by_cases hcode : u.code_symbol = name
      · have hu : ¬u.code_symbol ∈ st.new_symbols := fun hh => hnew (hcode ▸ hh)
        rw [if_neg hu, hcode, alookup_alistUpdate_self]
        have hfil : (u :: us).filter (fun v => v.code_symbol == name) =
            u :: us.filter (fun v => v.code_symbol == name) := by
          simp [List.filter_cons, hcode]
        rw [hfil]
        cases halook : alookup st.final_code_snippets name with
        | none => simp
        | some t => simp [MechaCodeSymbolThinking.add_step, List.append_assoc]
      · have hfil : (u :: us).filter (fun v => v.code_symbol == name) =
            us.filter (fun v => v.code_symbol == name) := by
          simp [List.filter_cons, hcode]
        rw [hfil]
        by_cases hu : u.code_symbol ∈ st.new_symbols
        · rw [if_pos hu]
        · rw [if_neg hu, alookup_alistUpdate_ne _ _ _ _ hcode]

theorem unordered_fold_akeys (us : List CodeSymbolWithThinking) (st : MergeState) :
    akeys (us.foldl unorderedStep st).final_code_snippets =
      akeys st.final_code_snippets := by
  induction us generalizing st with
  | nil => rfl
  | cons u us ih =>
    rw [List.foldl_cons, ih, unorderedStep_final]
    by_cases hu : u.code_symbol ∈ st.new_symbols
    · rw [if_pos hu]
    · rw [if_neg hu, akeys_alistUpdate]

theorem ordered_fold_nodup (os : List CodeSymbolWithSteps) (st : MergeState)
    (h : (akeys st.final_code_snippets).Nodup) :
    (akeys (os.foldl orderedStep st).final_code_snippets).Nodup := by
  induction os generalizing st with
  | nil => exact h
  | cons e os ih =>
    rw [List.foldl_cons]
    exact ih _ (by rw [orderedStep_final]; exact nodup_akeys_alistInsert _ _ _ h)

theorem ordered_fold_akeys_mem (name : String) (os : List CodeSymbolWithSteps)
    (st : MergeState) :
    name ∈ akeys (os.foldl orderedStep st).final_code_snippets ↔
      name ∈ akeys st.final_code_snippets ∨ ∃ e ∈ os, e.code_symbol = name := by
  rw [mem_akeys_iff_alookup, ordered_fold_alookup]
  cases hlast : lastOrdered name os with
  | some x =>
    have hx := lastOrdered_mem_aux name os x hlast
    simp only [ne_eq, reduceCtorEq, not_false_eq_true, true_iff]
    exact Or.inr ⟨x, hx.1, hx.2⟩
  | none =>
    have hnone : ¬∃ e ∈ os, e.code_symbol = name := by
      intro hex
      have := (lastOrdered_isSome_iff name os).mpr hex
      rw [hlast] at this
      exact absurd this (by simp)
    rw [← mem_akeys_iff_alookup]
    simp [hnone]

/-- Full per-name characterization of the merge pass: the stored task is
determined by the last ordered entry bearing the name, plus the appended
reasoning of matching unordered entries whenever the name never entered
`new_symbols`. -/
theorem merge_alookup (resp : CodeSymbolImportantResponse) (name : String) :
    alookup (mergeSymbols resp).final_code_snippets name =
      mergedTask resp.symbols resp.ordered_symbols name := by
  unfold mergeSymbols mergedTask
  rw [unordered_fold_alookup, ordered_fold_alookup]
  have hmem := ordered_fold_new_symbols name resp.ordered_symbols MergeState.init
  by_cases hnew : anyNewOrdered name resp.ordered_symbols = true
  · have hn : name ∈ (resp.ordered_symbols.foldl orderedStep MergeState.init).new_symbols := by
      rw [hmem]
      exact Or.inr ((anyNewOrdered_iff _ _).mp hnew)
    rw [if_pos hn]
    cases hlast : lastOrdered name resp.ordered_symbols with
    | some e => simp [hnew]
    | none =>
      exfalso
      obtain ⟨x, hx, hxn, _⟩ := (anyNewOrdered_iff _ _).mp hnew
      have := (lastOrdered_isSome_iff name resp.ordered_symbols).mpr ⟨x, hx, hxn⟩
      rw [hlast] at this
      exact absurd this (by simp)
  · have hn : ¬name ∈ (resp.ordered_symbols.foldl orderedStep MergeState.init).new_symbols := by
      rw [hmem]
      rintro (h | h)
      · simp [MergeState.init] at h
      · exact hnew ((anyNewOrdered_iff _ _).mpr h)
    rw [if_neg hn]
    cases hlast : lastOrdered name resp.ordered_symbols with
    | some e => simp [hnew, taskOfOrdered]
    | none => simp [MergeState.init]

/-! ## Lemmas about the resolution pass -/

theorem set_snippet_name (t : MechaCodeSymbolThinking) (sn : Snippet) :
    (t.set_snippet sn).symbol_name = t.symbol_name := rfl

theorem fallback_resolve_ok_name (env : ToolEnv) (t t' : MechaCodeSymbolThinking)
    (h : fallback_resolve env t = .ok t') : t'.symbol_name = t.symbol_name := by
  cases hfo : env.file_open t.fs_file_path with
  | error e => simp [fallback_resolve, hfo] at h
  | ok fd =>
    cases hfp : findPosition env fd.contents t.symbol_name with
    | none =>
      simp only [fallback_resolve, hfo, hfp, Outcome.ok.injEq] at h
      rw [h]
    | some pos =>
      cases hgd : env.go_to_definition t.fs_file_path pos with
      | error e => simp [fallback_resolve, hfo, hfp, hgd] at h
      | ok defn =>
        cases hgc : grab_symbol_content_from_definition env t.symbol_name defn with
        | ok snip =>
          simp only [fallback_resolve, hfo, hfp, hgd, hgc, Outcome.ok.injEq] at h
          rw [← h, set_snippet_name]
        | err e => simp [fallback_resolve, hfo, hfp, hgd, hgc] at h
        | panic => simp [fallback_resolve, hfo, hfp, hgd, hgc] at h

theorem resolve_with_outline_ok_name (env : ToolEnv) (t t' : MechaCodeSymbolThinking)
    (nodes : List OutlineNode) (h : resolve_with_outline env t nodes = .ok t') :
    t'.symbol_name = t.symbol_name := by
  cases hg : grab_symbols_from_outline nodes t.symbol_name with
  | nil =>
    rw [resolve_with_outline, hg] at h
    exact fallback_resolve_ok_name env t t' h
  | cons m ms =>
    simp only [resolve_with_outline, hg, Outcome.ok.injEq] at h
    rw [← h, set_snippet_name]

theorem resolve_task_ok_name (env : ToolEnv) (t t' : MechaCodeSymbolThinking)
    (h : resolve_task env t = .ok t') : t'.symbol_name = t.symbol_name := by
  cases hfo : env.file_open t.fs_file_path with
  | error e => simp [resolve_task, hfo] at h
  | ok fd =>
    cases ho : env.get_outline t.fs_file_path with
    | some nodes =>
      rw [resolve_task, hfo] at h
      have h' : resolve_with_outline env t nodes = .ok t' := by
        rw [← h]
        simp [ho]
      exact resolve_with_outline_ok_name env t t' nodes h'
    | none =>
      simp only [resolve_task, hfo, ho, Outcome.ok.injEq] at h
      rw [h]

theorem resolve_all_ok_names (env : ToolEnv)
    (m : List (String × MechaCodeSymbolThinking)) (l : List MechaCodeSymbolThinking)
    (h : resolve_all env m = .ok l) :
    l.map (·.symbol_name) = m.map (fun p => p.2.symbol_name) := by
  induction m generalizing l with
  | nil =>
    injection h with hh
    rw [← hh]
    rfl
  | cons p rest ih =>
    obtain ⟨k, t⟩ := p
    unfold resolve_all at h
    cases hrt : resolve_task env t with
    | ok t' =>
      rw [hrt] at h
      cases hra : resolve_all env rest with
      | ok tail =>
        rw [hra] at h
        injection h with hh
        rw [← hh]
        simp only [List.map_cons]
        rw [resolve_task_ok_name env t t' hrt, ih tail hra]
      | err e => rw [hra] at h; exact absurd h (by simp)
      | panic => rw [hra] at h; exact absurd h (by simp)
    | err e => rw [hrt] at h; exact absurd h (by simp)
    | panic => rw [hrt] at h; exact absurd h (by simp)

theorem resolve_all_ok_of_forall (env : ToolEnv)
    (m : List (String × MechaCodeSymbolThinking))
    (h : ∀ p ∈ m, ∃ t', resolve_task env p.2 = .ok t') :
    ∃ l, resolve_all env m = .ok l ∧ l.length = m.length := by
  induction m with
  | nil => exact ⟨[], rfl, rfl⟩
  | cons p rest ih =>
    obtain ⟨k, t⟩ := p
    obtain ⟨t', ht'⟩ := h (k, t) (by simp)
    obtain ⟨tail, htail, hlen⟩ := ih (fun q hq => h q (List.mem_cons_of_mem _ hq))
    refine ⟨t' :: tail, ?_, by simp [hlen]⟩
    unfold resolve_all
    rw [ht', htail]

theorem resolve_all_abort (env : ToolEnv)
    (m : List (String × MechaCodeSymbolThinking))
    (h : ∃ p ∈ m, ∀ t', resolve_task env p.2 ≠ .ok t') :
    ∀ l, resolve_all env m ≠ .ok l := by
  induction m with
  | nil =>
    obtain ⟨p, hp, _⟩ := h
    exact absurd hp (by simp)
  | cons q rest ih =>
    obtain ⟨k, t⟩ := q
    intro l hl
    unfold resolve_all at hl
    cases hrt : resolve_task env t with
    | ok t' =>
      rw [hrt] at hl
      obtain ⟨p, hp, hpn⟩ := h
      rcases List.mem_cons.mp hp with rfl | hp'
      · exact hpn t' hrt
      · cases hra : resolve_all env rest with
        | ok tail => exact ih ⟨p, hp', hpn⟩ tail hra
        | err e => rw [hra] at hl; exact absurd hl (by simp)
        | panic => rw [hra] at hl; exact absurd hl (by simp)
    | err e => rw [hrt] at hl; exact absurd hl (by simp)
    | panic => rw [hrt] at hl; exact absurd hl (by simp)

theorem ordered_fold_key_name (os : List CodeSymbolWithSteps) (st : MergeState)
    (h : ∀ p ∈ st.final_code_snippets, p.2.symbol_name = p.1) :
    ∀ p ∈ (os.foldl orderedStep st).final_code_snippets, p.2.symbol_name = p.1 := by
  induction os generalizing st with
  | nil => exact h
  | cons e os ih =>
    rw [List.foldl_cons]
    apply ih
    rw [orderedStep_final]
    exact alistInsert_forall _ _ _ _ h (by simp [taskOfOrdered])

theorem unordered_fold_key_name (us : List CodeSymbolWithThinking) (st : MergeState)
    (h : ∀ p ∈ st.final_code_snippets, p.2.symbol_name = p.1) :
    ∀ p ∈ (us.foldl unorderedStep st).final_code_snippets, p.2.symbol_name = p.1 := by
  induction us generalizing st with
  | nil => exact h
  | cons u us ih =>
    rw [List.foldl_cons]
    apply ih
    rw [unorderedStep_final]
    by_cases hu : u.code_symbol ∈ st.new_symbols
    · rw [if_pos hu]; exact h
    · rw [if_neg hu]
      exact alistUpdate_forall _ _ _ _ h
        (fun v hv => by simpa [MechaCodeSymbolThinking.add_step] using hv)

theorem merge_key_eq_name (resp : CodeSymbolImportantResponse) :
    ∀ p ∈ (mergeSymbols resp).final_code_snippets, p.2.symbol_name = p.1 := by
  unfold mergeSymbols
  exact unordered_fold_key_name _ _ (ordered_fold_key_name _ _ (by simp [MergeState.init]))

/-! ## Lemmas about the hub and the streaming protocol -/

theorem dispatchLoop_from_length {Req Resp : Type} (process : Req → Resp) (i : Nat)
    (reqs : List Req) :
    (dispatchLoop process (submitAllFrom i reqs)).length = reqs.length := by
  induction reqs generalizing i with
  | nil => rfl
  | cons r rs ih => simp [submitAllFrom, dispatchLoop, ih]

theorem dispatchLoop_from_fst {Req Resp : Type} (process : Req → Resp) (i : Nat)
    (reqs : List Req) :
    (dispatchLoop process (submitAllFrom i reqs)).map Prod.fst =
      List.range' i reqs.length := by
  induction reqs generalizing i with
  | nil => rfl
  | cons r rs ih => simp [submitAllFrom, dispatchLoop, List.range', ih]

theorem dispatchLoop_from_getElem {Req Resp : Type} (process : Req → Resp) (i : Nat)
    (reqs : List Req) (n : Nat) (r : Req) (h : reqs[n]? = some r) :
    (dispatchLoop process (submitAllFrom i reqs))[n]? = some (i + n, process r) := by
  induction reqs generalizing i n with
  | nil => simp at h
  | cons q rs ih =>
    cases n with
    | zero =>
      simp only [List.getElem?_cons_zero, Option.some.injEq] at h
      simp [submitAllFrom, dispatchLoop, h]
    | succ n =>
      simp only [List.getElem?_cons_succ] at h
      have := ih (i + 1) n h
      simpa [submitAllFrom, dispatchLoop, Nat.add_assoc, Nat.add_comm 1 n] using this

theorem count_range_eq (i n : Nat) :
    (List.range n).count i = if i < n then 1 else 0 := by
  induction n with
  | zero => simp
  | succ n ih =>
    rw [List.range_succ, List.count_append, ih]
    by_cases h : i < n
    · have hne : i ≠ n := Nat.ne_of_lt h
      simp [h, Nat.lt_succ_of_lt h, List.count_singleton, hne]
    · by_cases he : i = n
      · subst he
        simp [h, Nat.lt_succ_self, List.count_singleton]
      · have : ¬i < n + 1 := by
          intro hlt
          rcases Nat.lt_succ_iff_lt_or_eq.mp hlt with h' | h'
          · exact h h'
          · exact he h'
        simp [h, this, List.count_singleton, he]

theorem consumerAnswer_foldl_aux (msgs : List StreamMessage) (a : String)
    (h : msgs ≠ []) :
    msgs.foldl (fun _ msg => msg.answer_up_until_now) a =
      (msgs.getLast h).answer_up_until_now := by
  induction msgs generalizing a with
  | nil => exact absurd rfl h
  | cons m rest ih =>
    cases rest with
    | nil => simp [List.getLast]
    | cons m2 rest2 =>
      rw [List.foldl_cons, ih _ (by simp)]
      rfl

theorem consumerAnswer_eq_getLast (msgs : List StreamMessage) (h : msgs ≠ []) :
    consumerAnswer msgs = (msgs.getLast h).answer_up_until_now :=
  consumerAnswer_foldl_aux msgs "" h

theorem lastOrdered_append (name : String) (os os' : List CodeSymbolWithSteps) :
    lastOrdered name (os ++ os') =
      match lastOrdered name os' with
      | some e => some e
      | none => lastOrdered name os := by
  induction os with
  | nil =>
    rw [List.nil_append]
    cases lastOrdered name os' <;> rfl
  | cons e os ih =>
    rw [List.cons_append, lastOrdered, ih, lastOrdered]
    cases lastOrdered name os' <;> cases lastOrdered name os <;> simp

theorem anyNewOrdered_self_append (name : String) (os : List CodeSymbolWithSteps) :
    anyNewOrdered name (os ++ os) = anyNewOrdered name os := by
  simp [anyNewOrdered, List.any_append]

theorem unordered_fold_to_visit_mono (us : List CodeSymbolWithThinking)
    (st : MergeState) (name : String) (h : name ∈ st.symbols_to_visit) :
    name ∈ (us.foldl unorderedStep st).symbols_to_visit := by
  induction us generalizing st with
  | nil => exact h
  | cons u us ih =>
    rw [List.foldl_cons]
    apply ih
    by_cases hu : u.code_symbol ∈ st.new_symbols
    · simpa [unorderedStep, hu] using h
    · simp only [unorderedStep, if_neg hu]
      exact (mem_insertSet _ _ _).mpr (Or.inl h)

theorem unordered_to_visit_of_mem (us : List CodeSymbolWithThinking)
    (st : MergeState) (name : String) (hnew : name ∉ st.new_symbols)
    (hu : ∃ u ∈ us, u.code_symbol = name) :
    name ∈ (us.foldl unorderedStep st).symbols_to_visit := by
  induction us generalizing st with
  | nil =>
    obtain ⟨u, hu', _⟩ := hu
    exact absurd hu' (by simp)
  | cons u us ih =>
    rw [List.foldl_cons]
    obtain ⟨v, hv, hvn⟩ := hu
    rcases List.mem_cons.mp hv with rfl | hv'
    · apply unordered_fold_to_visit_mono
      have hun : ¬v.code_symbol ∈ st.new_symbols := by rw [hvn]; exact hnew
      simp only [unorderedStep, if_neg hun]
      exact (mem_insertSet _ _ _).mpr (Or.inr hvn.symm)
    · exact ih _ (by rw [unorderedStep_new_symbols]; exact hnew) ⟨v, hv', hvn⟩

/-! ## Settling the claims -/

/-- Claim C2, counterexample: in the ordered list
`[Foo (new), Foo (existing)]` the name `Foo` is classified new by some
entry, yet the merged task carries `is_new = false` — the later duplicate
inside the ordered list overwrites and demotes the earlier "new"
classification, refuting the claim as stated. -/
theorem c2_counterexample :
    (∃ e ∈ [orderedFooNew, orderedFooOld], e.code_symbol = "Foo" ∧ e.is_new = true)
    ∧ (alookup (mergeSymbols ⟨[], [orderedFooNew, orderedFooOld]⟩).final_code_snippets
        "Foo").map (·.is_new) = some false :=
  ⟨⟨orderedFooNew, by simp, rfl, rfl⟩, rfl⟩

/-- Claim C2, amended: the merged `is_new` flag of every name equals the
classification of the LAST ordered entry bearing that name; in
particular a name whose last ordered entry is classified new is merged
with `isNew = true`, and no unordered entry ever changes the flag — but
a later duplicate inside the ordered list overwrites the earlier one. -/
theorem c2_last_ordered_entry_decides_isNew (resp : CodeSymbolImportantResponse)
    (name : String) :
    (alookup (mergeSymbols resp).final_code_snippets name).map (·.is_new) =
      (lastOrdered name resp.ordered_symbols).map (·.is_new) := by
  rw [merge_alookup]
  unfold mergedTask
  cases lastOrdered name resp.ordered_symbols with
  | none => rfl
  | some e =>
    by_cases h : anyNewOrdered name resp.ordered_symbols = true
    · simp [h, taskOfOrdered]
    · simp [h, taskOfOrdered]

/-- Claim C3: evaluating `grab_symbol_content_from_definition` on an
empty definitions list aborts with a Rust panic (`Vec::remove(0)` on an
empty vector) instead of failing non-fatally as the specification
requires; the source even carries a TODO admitting "This will break if
we are unable to get definitions properly". -/
theorem c3_empty_definitions_panic (env : ToolEnv) (symbol_name : String) :
    grab_symbol_content_from_definition env symbol_name ⟨[]⟩ = .panic := rfl

/-- Claim C5: the container-aware filter gives a matching container
exactly its own content, never its members; only a container whose own
name differs has its members scanned. -/
theorem c5_container_match_precedence (node : OutlineNode)
    (nodes : List OutlineNode) (name : String) :
    (node.is_class = true → node.content.name = name →
      grab_symbols_from_outline (node :: nodes) name =
        node.content :: grab_symbols_from_outline nodes name)
    ∧ (node.is_class = true → node.content.name ≠ name →
      grab_symbols_from_outline (node :: nodes) name =
        node.children.filter (fun child => child.name = name) ++
          grab_symbols_from_outline nodes name) := by
  constructor
  · intro hc hn
    simp [grab_symbols_from_outline, hc, hn]
  · intro hc hn
    simp [grab_symbols_from_outline, hc, hn]

/-- Claim C5, witness: a container named `Foo` holding a member also
named `Foo` resolves to the container's content (range 0–10), not the
member's (range 2–3). -/
theorem c5_witness :
    grab_symbols_from_outline [nodeFooNested] "Foo" = [nodeFooNested.content]
    ∧ nodeFooNested.content.range ≠ (⟨2, 0, 3, 0⟩ : Range) := by
  have h := (c5_container_match_precedence nodeFooNested [] "Foo").1 rfl rfl
  exact ⟨by simpa [grab_symbols_from_outline] using h, by decide⟩

/-- Claim C6, counterexample: merging the hint list with itself
duplicated is not idempotent — each duplicate unordered occurrence of
`Foo` appends its reasoning again, so the steps become
`["a", "b", "b"]` instead of `["a", "b"]`. -/
theorem c6_counterexample :
    (alookup (mergeSymbols ⟨[unorderedFooB, unorderedFooB],
        [orderedFooOld, orderedFooOld]⟩).final_code_snippets "Foo").map (·.steps) =
      some ["a", "b", "b"]
    ∧ (alookup (mergeSymbols ⟨[unorderedFooB],
        [orderedFooOld]⟩).final_code_snippets "Foo").map (·.steps) =
      some ["a", "b"] :=
  ⟨rfl, rfl⟩

/-- Claim C6, amended: exactly one task exists per distinct symbol name
(the key list of the merged map is duplicate-free); duplicating the
ordered list alone leaves every stored task unchanged (duplicates
overwrite with the same content); and appending one more unordered hint
whose name exists and never entered the new-symbol set appends its
reasoning to the stored task rather than overwriting it. Duplicating the
unordered list, however, appends its reasoning once per occurrence, so
merging a self-appended hint list is not idempotent. -/
theorem c6_dedupe_and_ordered_idempotence (resp : CodeSymbolImportantResponse)
    (name : String) (u : CodeSymbolWithThinking) :
    (akeys (mergeSymbols resp).final_code_snippets).Nodup
    ∧ (∀ k, alookup (mergeSymbols
          ⟨resp.symbols, resp.ordered_symbols ++ resp.ordered_symbols⟩).final_code_snippets k =
        alookup (mergeSymbols resp).final_code_snippets k)
    ∧ (u.code_symbol = name → anyNewOrdered name resp.ordered_symbols = false →
        alookup (mergeSymbols
            ⟨resp.symbols ++ [u], resp.ordered_symbols⟩).final_code_snippets name =
          (alookup (mergeSymbols resp).final_code_snippets name).map
            (fun t => t.add_step u.thinking)) := by
  refine ⟨?_, ?_, ?_⟩
  · unfold mergeSymbols
    rw [show akeys ((resp.symbols.foldl unorderedStep
        (resp.ordered_symbols.foldl orderedStep MergeState.init)).final_code_snippets) =
        akeys ((resp.ordered_symbols.foldl orderedStep
          MergeState.init).final_code_snippets) from unordered_fold_akeys _ _]
    exact ordered_fold_nodup _ _ (by simp [MergeState.init])
  · intro k
    rw [merge_alookup, merge_alookup]
    unfold mergedTask
    rw [show lastOrdered k (resp.ordered_symbols ++ resp.ordered_symbols) =
        lastOrdered k resp.ordered_symbols from ?_]
    · rw [anyNewOrdered_self_append]
    · rw [lastOrdered_append]
      cases lastOrdered k resp.ordered_symbols <;> rfl
  · intro hn hnew
    rw [merge_alookup, merge_alookup]
    unfold mergedTask
    cases lastOrdered name resp.ordered_symbols with
    | none => rfl
    | some e =>
      have hfil : (resp.symbols ++ [u]).filter (fun v => v.code_symbol == name) =
          resp.symbols.filter (fun v => v.code_symbol == name) ++ [u] := by
        rw [List.filter_append]
        simp [List.filter, hn]
      simp [hnew, hfil, MechaCodeSymbolThinking.add_step, taskOfOrdered]

/-- Claim C6, witness: appending the unordered hint `Foo/"c"` to the
`respFooBar`-shaped input appends exactly the step `"c"` to the stored
task for `Foo`. -/
theorem c6_witness :
    alookup (mergeSymbols ⟨[unorderedFooB, unorderedFooC],
        [orderedFooOld]⟩).final_code_snippets "Foo" =
      (alookup (mergeSymbols ⟨[unorderedFooB],
          [orderedFooOld]⟩).final_code_snippets "Foo").map
        (fun t => t.add_step unorderedFooC.thinking) := by
  have h := (c6_dedupe_and_ordered_idempotence ⟨[unorderedFooB], [orderedFooOld]⟩
    "Foo" unorderedFooC).2.2 rfl rfl
  simpa using h

/-- Claim C1, counterexample: with one merged non-new task whose hinted
file fails to open with `ToolInvocationFailed`, `important_symbols`
returns the error itself instead of a full list with a degraded entry —
the error is propagated by `?`, not caught at the task boundary. -/
theorem c1_counterexample :
    important_symbols envOpenFails respFoo =
      .err (.toolError .invocationFailed) := rfl

/-- Claim C1, amended: only two degraded cases are caught and downgraded
to an absent snippet with the pass continuing — a file with no cached
outline, and an empty direct match whose find-in-file lookup yields no
position. A `ToolInvocationFailed` or `SymbolNotFound` from `file_open`,
`go_to_definition` or the definition-content grab propagates out of
`important_symbols` and aborts the whole pass; the pass returns one
entry per merged task exactly when every task resolves without a
propagated error. -/
theorem c1_resolution_error_handling (env : ToolEnv)
    (resp : CodeSymbolImportantResponse) (t : MechaCodeSymbolThinking)
    (f : OpenFileResponse) :
    (env.file_open t.fs_file_path = .ok f →
      env.get_outline t.fs_file_path = none → resolve_task env t = .ok t)
    ∧ (∀ nodes, env.file_open t.fs_file_path = .ok f →
        env.get_outline t.fs_file_path = some nodes →
        grab_symbols_from_outline nodes t.symbol_name = [] →
        findPosition env f.contents t.symbol_name = none →
        resolve_task env t = .ok t)
    ∧ ((∀ p ∈ (mergeSymbols resp).final_code_snippets,
          ∃ t', resolve_task env p.2 = .ok t') →
        ∃ l, important_symbols env resp = .ok l ∧
          l.length = (mergeSymbols resp).final_code_snippets.length)
    ∧ ((∃ p ∈ (mergeSymbols resp).final_code_snippets,
          ∀ t', resolve_task env p.2 ≠ .ok t') →
        ∀ l, important_symbols env resp ≠ .ok l) := by
  refine ⟨?_, ?_, ?_, ?_⟩
  · intro hfo ho
    simp [resolve_task, hfo, ho]
  · intro nodes hfo ho hg hfp
    simp [resolve_task, resolve_with_outline, fallback_resolve, hfo, ho, hg, hfp]
  · intro hall
    exact resolve_all_ok_of_forall env _ hall
  · intro hbad
    exact resolve_all_abort env _ hbad

/-- Claim C1, witness: the two degraded cases resolve to the unchanged
task; a fully resolving environment yields the full one-entry list; the
failing environment aborts the pass. -/
theorem c1_witness :
    resolve_task envNoOutline taskFoo = .ok taskFoo
    ∧ resolve_task envEmptyOutline taskFoo = .ok taskFoo
    ∧ (∃ l, important_symbols envNoOutline respFoo = .ok l ∧ l.length = 1)
    ∧ (∀ l, important_symbols envOpenFails respFoo ≠ .ok l) := by
  refine ⟨?_, ?_, ?_, ?_⟩
  · exact (c1_resolution_error_handling envNoOutline respFoo taskFoo
      ⟨"", "rust", "f.rs"⟩).1 rfl rfl
  · exact (c1_resolution_error_handling envEmptyOutline respFoo taskFoo
      ⟨"", "rust", "f.rs"⟩).2.1 [] rfl rfl rfl rfl
  · have h := (c1_resolution_error_handling envNoOutline respFoo taskFoo
      ⟨"", "rust", "f.rs"⟩).2.2.1 ?_
    · simpa using h
    · intro p hp
      have hp' : p = ("Foo", taskFoo) := List.mem_singleton.mp hp
      rw [hp']
      exact ⟨taskFoo, rfl⟩
  · apply (c1_resolution_error_handling envOpenFails respFoo taskFoo
      ⟨"", "rust", "f.rs"⟩).2.2.2
    refine ⟨("Foo", taskFoo), List.mem_singleton.mpr rfl, fun t' ht' => ?_⟩
    rw [show resolve_task envOpenFails taskFoo =
      .err (.toolError .invocationFailed) from rfl] at ht'
    exact Outcome.noConfusion ht'

/-- Claim C4: for a task whose hinted file opens and has a cached
outline, a non-empty container-aware filter result makes the task's
snippet the first match — independently of the rest of the environment,
so go-to-definition is never consulted — while an empty filter result
routes the task to the go-to-definition fallback path. -/
theorem c4_direct_match_first_wins (env : ToolEnv) (t : MechaCodeSymbolThinking)
    (f : OpenFileResponse) (nodes : List OutlineNode)
    (hfo : env.file_open t.fs_file_path = .ok f)
    (ho : env.get_outline t.fs_file_path = some nodes) :
    (∀ m ms, grab_symbols_from_outline nodes t.symbol_name = m :: ms →
      resolve_task env t = .ok (t.set_snippet ⟨m.name, m.range, m.fs_file_path⟩))
    ∧ (grab_symbols_from_outline nodes t.symbol_name = [] →
      resolve_task env t = fallback_resolve env t) := by
  constructor
  · intro m ms hg
    simp [resolve_task, resolve_with_outline, hfo, ho, hg]
  · intro hg
    simp [resolve_task, resolve_with_outline, hfo, ho, hg]

/-- Claim C4, witness: with the outline holding the leaf `Bar`, the task
for `Bar` gets that leaf's snippet even though every other tool call of
the environment fails; with an empty outline the task goes through the
fallback path. -/
theorem c4_witness :
    resolve_task envBarOutline taskBar =
      .ok (taskBar.set_snippet ⟨"Bar", ⟨4, 0, 9, 0⟩, "a.rs"⟩)
    ∧ resolve_task envEmptyOutline taskBar =
      fallback_resolve envEmptyOutline taskBar := by
  constructor
  · have h := (c4_direct_match_first_wins envBarOutline taskBar
      ⟨"", "rust", "a.rs"⟩ [⟨barContent, [], false⟩] rfl rfl).1 barContent [] rfl
    simpa [barContent] using h
  · exact (c4_direct_match_first_wins envEmptyOutline taskBar
      ⟨"", "rust", "a.rs"⟩ [] rfl rfl).2 rfl

/-- Claim C10: a successful pass returns tasks for exactly the names of
the ordered symbol list; a name appearing only in the unordered list is
recorded in `symbols_to_visit` but never receives a task and is absent
from the returned list. -/
theorem c10_tasks_exactly_ordered_names (env : ToolEnv)
    (resp : CodeSymbolImportantResponse) (l : List MechaCodeSymbolThinking)
    (h : important_symbols env resp = .ok l) :
    (∀ name, name ∈ l.map (·.symbol_name) ↔
      ∃ e ∈ resp.ordered_symbols, e.code_symbol = name)
    ∧ (∀ name, (∃ u ∈ resp.symbols, u.code_symbol = name) →
        (¬∃ e ∈ resp.ordered_symbols, e.code_symbol = name) →
        name ∈ (mergeSymbols resp).symbols_to_visit ∧
          ¬name ∈ l.map (·.symbol_name)) := by
  have hnames : l.map (·.symbol_name) =
      akeys (mergeSymbols resp).final_code_snippets := by
    have h1 := resolve_all_ok_names env (mergeSymbols resp).final_code_snippets l h
    rw [h1]
    show _ = (mergeSymbols resp).final_code_snippets.map Prod.fst
    exact List.map_congr_left (fun p hp => merge_key_eq_name resp p hp)
  have hmem : ∀ name, name ∈ akeys (mergeSymbols resp).final_code_snippets ↔
      ∃ e ∈ resp.ordered_symbols, e.code_symbol = name := by
    intro name
    unfold mergeSymbols
    rw [show akeys ((resp.symbols.foldl unorderedStep
        (resp.ordered_symbols.foldl orderedStep MergeState.init)).final_code_snippets) =
        akeys ((resp.ordered_symbols.foldl orderedStep
          MergeState.init).final_code_snippets) from unordered_fold_akeys _ _]
    rw [ordered_fold_akeys_mem]
    simp [MergeState.init]
  refine ⟨fun name => by rw [hnames]; exact hmem name, ?_⟩
  intro name hu hno
  constructor
  · unfold mergeSymbols
    apply unordered_to_visit_of_mem
    · intro hmem_new
      rw [ordered_fold_new_symbols] at hmem_new
      rcases hmem_new with h' | ⟨e, he, hen, _⟩
      · simp [MergeState.init] at h'
      · exact hno ⟨e, he, hen⟩
    · exact hu
  · rw [hnames, hmem name]
    exact hno

/-- Claim C10, witness: with `Foo` ordered and `Bar` only unordered, the
pass returns only the `Foo` task while `Bar` sits in the to-visit set. -/
theorem c10_witness :
    "Bar" ∈ (mergeSymbols respFooBar).symbols_to_visit
    ∧ ¬"Bar" ∈ ([taskFoo].map (·.symbol_name)) := by
  have h := (c10_tasks_exactly_ordered_names envNoOutline respFooBar [taskFoo]
    rfl).2 "Bar" ⟨⟨"Bar", "explore", "g.rs"⟩, by simp [respFooBar], rfl⟩ ?_
  · exact h
  · rintro ⟨e, he, hen⟩
    have he' : e = orderedFooOld := by simpa [respFooBar] using he
    rw [he'] at hen
    exact absurd hen (by decide)

/-- Claim C7: running the hub's dispatch loop over N submitted requests
signals exactly N replies, one per fresh one-shot channel — channel i is
signalled exactly once, in FIFO order, with the response produced for
its own submission. -/
theorem c7_mailbox_exactly_once {Req Resp : Type} (process : Req → Resp)
    (reqs : List Req) :
    (hubRun process reqs).length = reqs.length
    ∧ (hubRun process reqs).map Prod.fst = List.range reqs.length
    ∧ (∀ i, ((hubRun process reqs).map Prod.fst).count i =
        if i < reqs.length then 1 else 0)
    ∧ (∀ (n : Nat) (r : Req), reqs[n]? = some r →
        (hubRun process reqs)[n]? = some (n, process r)) := by
  have hfst : (hubRun process reqs).map Prod.fst = List.range reqs.length := by
    rw [hubRun, submitAll, dispatchLoop_from_fst, List.range_eq_range']
  refine ⟨dispatchLoop_from_length process 0 reqs, hfst, ?_, ?_⟩
  · intro i
    rw [hfst, count_range_eq]
  · intro n r hr
    have h := dispatchLoop_from_getElem process 0 reqs n r hr
    simpa using h

/-- Claim C7, witness: three requests yield the three replies
`(0, 105), (1, 106), (2, 107)`, the second on its own channel. -/
theorem c7_witness :
    (hubRun (fun r : Nat => r + 100) [5, 6, 7]).length = 3
    ∧ (hubRun (fun r : Nat => r + 100) [5, 6, 7])[1]? = some (1, 106) :=
  ⟨(c7_mailbox_exactly_once (fun r => r + 100) [5, 6, 7]).1,
    (c7_mailbox_exactly_once (fun r => r + 100) [5, 6, 7]).2.2.2 1 6 rfl⟩

/-- Claim C8: with a joined consumer, the protocol's overall result is
the `answerSoFar` of the last message the consumer received, and it does
not depend on whether the producer wrapper ended by natural completion
or by cancellation — the channel is not force-closed by cancellation —
so a non-empty final cumulative answer is returned intact. -/
theorem c8_cancellation_preserves_final_answer
    (llm_response : CancellableOutcome) (msgs : List StreamMessage)
    (h : msgs ≠ []) :
    session_chat_invoke true llm_response msgs true =
      .ok ((msgs.getLast h).answer_up_until_now)
    ∧ session_chat_invoke true .cancelled msgs true =
        session_chat_invoke true .completed msgs true
    ∧ ((msgs.getLast h).answer_up_until_now ≠ "" →
        session_chat_invoke true llm_response msgs true ≠ .ok "") := by
  have hbase : session_chat_invoke true llm_response msgs true =
      .ok (consumerAnswer msgs) := rfl
  refine ⟨?_, rfl, ?_⟩
  · rw [hbase, consumerAnswer_eq_getLast msgs h]
  · intro hne hcontra
    rw [hbase, consumerAnswer_eq_getLast msgs h] at hcontra
    exact hne (by injection hcontra)

/-- Claim C8, witness: cancelling after the stream accumulated `hello`
still returns `hello`. -/
theorem c8_witness :
    session_chat_invoke true .cancelled msgsHello true = .ok "hello" := by
  have h := (c8_cancellation_preserves_final_answer .cancelled msgsHello
    (by simp [msgsHello])).1
  simpa [msgsHello] using h

/-- Claim C9: the protocol reports `RetriesExhausted` exactly when the
consumer unit cannot be joined, and in every other case returns `Ok`
with the consumer's accumulated reply — no partial result is synthesized
on a failed join. -/
theorem c9_retries_iff_consumer_join_fails
    (llm_response : CancellableOutcome) (msgs : List StreamMessage)
    (consumer_joins : Bool) :
    (session_chat_invoke true llm_response msgs consumer_joins =
        .error .retriesExhausted ↔ consumer_joins = false)
    ∧ (consumer_joins = true →
        session_chat_invoke true llm_response msgs consumer_joins =
          .ok (consumerAnswer msgs)) := by
  cases consumer_joins <;> simp [session_chat_invoke, channelContents]

/-- Claim C9, witness: a failed consumer join reports `RetriesExhausted`;
a joined consumer returns the accumulated reply `hello`. -/
theorem c9_witness :
    session_chat_invoke true .completed msgsHello false =
      .error .retriesExhausted
    ∧ session_chat_invoke true .completed msgsHello true = .ok "hello" :=
  ⟨(c9_retries_iff_consumer_join_fails .completed msgsHello false).1.mpr rfl,
    (c9_retries_iff_consumer_join_fails .completed msgsHello true).2 rfl⟩

end Sidecar
